import Mathlib

/- Shallow embedding of the deconvolution engine of
`delphi_covidcast_nowcast/deconvolution/deconvolution.py`.

Conventions used throughout this development:
* 1-D numpy arrays are embedded as index functions `ℕ → ℚ` together with an
  explicit length parameter; machine floats are modelled as exact rationals.
* arrays that may hold NaN entries are `ℕ → Option ℚ`, with `none` for NaN.
* a Python call that can raise (ZeroDivisionError, `np.linalg.LinAlgError`,
  IndexError, AssertionError) is embedded with an `Option` result; `none`
  means the call raised an exception and produced no value.
-/

/-- Models `np.sign` on a scalar: -1, 0 or 1 according to the sign of `x`. -/
def np_sign (x : ℚ) : ℚ :=
  if x < 0 then -1 else if x = 0 then 0 else 1

/-- Embeds `_soft_thresh` (deconvolution.py lines 98-100):
`np.sign(x) * np.maximum(np.abs(x) - lam, 0)`, scalar case. -/
def soft_thresh (x lam : ℚ) : ℚ :=
  np_sign x * max (|x| - lam) 0

/-- Vectorized `_soft_thresh`, applied elementwise to a vector, as the numpy ufuncs do. -/
def soft_thresh_vec (v : ℕ → ℚ) (lam : ℚ) : ℕ → ℚ :=
  fun i => soft_thresh (v i) lam

/-- Models `scipy.linalg.toeplitz(c, r)` entrywise: `T[i, j] = c[i - j]` when
`i ≥ j`, and `T[i, j] = r[j - i]` otherwise. -/
def toeplitz (c r : ℕ → ℚ) : ℕ → ℕ → ℚ :=
  fun i j => if j ≤ i then c (i - j) else r (j - i)

/-- Embeds `_construct_convolution_matrix` (deconvolution.py lines 14-37): the full
`(n+m-1) × n` convolution matrix `toeplitz(first_col, first_row)` with
`first_col = np.r_[kernel, zeros(n-1)]` (the kernel of length `m` padded by
zeros) and `first_row = np.r_[kernel[0], zeros(n-1)]`.  Entries are given as
an index function; the caller (deconvolution.py line 105) truncates to the
first `n` rows by using row indices `i < n` only. -/
def construct_convolution_matrix (kernel : ℕ → ℚ) (m : ℕ) : ℕ → ℕ → ℚ :=
  toeplitz (fun i => if i < m then kernel i else 0)
    (fun j => if j = 0 then kernel 0 else 0)

/-- numpy matrix-vector product `M @ x` where `x` has length `n`. -/
def mat_vec (n : ℕ) (M : ℕ → ℕ → ℚ) (x : ℕ → ℚ) : ℕ → ℚ :=
  fun i => ∑ j in Finset.range n, M i j * x j

/-- Sample `i` of the full linear convolution of a signal `x` with a kernel
of length `m` (used for `i` below the signal length, where no truncation of
`x` is involved): `(x ⋆ kernel) i = ∑_{j ≤ i} kernel (i - j) · x j`.  Stated
over any commutative ring so that it serves both as the action of the
convolution matrix (over `ℚ`) and as the time-domain reference
implementation of the forward model. -/
def linear_convolution {F : Type} [CommRing F] (x kernel : ℕ → F) (m : ℕ) : ℕ → F :=
  fun i => ∑ j in Finset.range (i + 1),
    (if i - j < m then kernel (i - j) else 0) * x j

/-- The discrete Fourier transform computed by `np.fft.fft(x, N)` in exact
arithmetic: `X k = ∑_{j<N} x j · ω^(j·k)`, where `ω` plays the role of the
primitive `N`-th root of unity `exp(-2πi/N)`.  Stated over an arbitrary
field carrying such a root, which captures the exact-arithmetic content of
the floating-point FFT. -/
def dft {F : Type} [Field F] (N : ℕ) (ω : F) (x : ℕ → F) : ℕ → F :=
  fun k => ∑ j in Finset.range N, x j * ω ^ (j * k)

/-- The inverse transform `np.fft.ifft` in exact arithmetic: scale by `N⁻¹`
and transform with the inverse root `ω^(N-1)` (equal to `ω⁻¹` whenever
`ω^N = 1`). -/
def idft {F : Type} [Field F] (N : ℕ) (ω : F) (X : ℕ → F) : ℕ → F :=
  fun k => (N : F)⁻¹ * ∑ j in Finset.range N, X j * (ω ^ (N - 1)) ^ (j * k)

/-- Embeds `_fft_convolve` (deconvolution.py lines 40-60) in exact arithmetic:
zero-pad both inputs to length `N = n + m - 1` (as `np.fft.fft(·, n+m-1)`
does), transform, multiply pointwise, inverse-transform and read off the
first `n` samples; callers only use sample indices `i < n`, which models
the final `[:n]` truncation.  The `.real` projection of the Python code is
the identity here because in exact arithmetic the round trip below already
produces the real (field) value. -/
def fft_convolve {F : Type} [Field F] (ω : F) (signal kernel : ℕ → F) (n m : ℕ) : ℕ → F :=
  fun i => idft (n + m - 1) ω
    (fun j => dft (n + m - 1) ω (fun t => if t < n then signal t else 0) j
      * dft (n + m - 1) ω (fun t => if t < m then kernel t else 0) j) i

/-- Five is prime, so `ZMod 5` is a field (used by the witness below). -/
instance fact_prime_five : Fact (Nat.Prime 5) :=
  ⟨by norm_num⟩

/-- Python scalar division `lam / rho` (line 122): floats raise
ZeroDivisionError on a zero denominator, modelled by `none`. -/
def py_div (a b : ℚ) : Option ℚ :=
  if b = 0 then none else some (a / b)

/-- Models `scipy.sparse.diags([-1, 1], [0, 1], shape=(n-1, n))` (line 106): the
banded first-order difference matrix, entrywise (`-1` on the diagonal, `1`
on the superdiagonal); rows `i < n - 1` are used. -/
def band_matrix : ℕ → ℕ → ℚ :=
  fun i j => if j = i then -1 else if j = i + 1 then 1 else 0

/-- Models `np.diff(M, n=k, axis=0)` (line 107): `k`-fold successive row
differencing of a matrix. -/
def diff_rows : ℕ → (ℕ → ℕ → ℚ) → (ℕ → ℕ → ℚ)
  | 0, M => M
  | k + 1, M => diff_rows k (fun i j => M (i + 1) j - M i j)

/-- Models `np.diff(v, n=k)` on a vector (line 121). -/
def diff_vec : ℕ → (ℕ → ℚ) → (ℕ → ℚ)
  | 0, v => v
  | k + 1, v => diff_vec k (fun i => v (i + 1) - v i)

/-- The trend-filtering operator `D` of `deconvolve_tf` (lines 106-107):
the banded first-difference matrix row-differenced `k` further times; it
has `n - k - 1` rows and `n` columns. -/
def trend_D (k : ℕ) : ℕ → ℕ → ℚ :=
  diff_rows k band_matrix

/-- The precomputed matrix `CᵀC/n + ρ·DᵀD` of `deconvolve_tf`
(lines 110-113), entrywise; `C` is the truncated convolution matrix, `D`
the trend-filtering operator with `n - k - 1` rows. -/
def precompute_matrix (kernel : ℕ → ℚ) (m n k : ℕ) (rho : ℚ) : ℕ → ℕ → ℚ :=
  fun i j =>
    (∑ t in Finset.range n, construct_convolution_matrix kernel m t i
      * construct_convolution_matrix kernel m t j) / n
    + rho * ∑ t in Finset.range (n - k - 1), trend_D k t i * trend_D k t j

/-- The precomputed vector `Cᵀy/n` of `deconvolve_tf` (line 112). -/
def Cty (y kernel : ℕ → ℚ) (m n : ℕ) : ℕ → ℚ :=
  fun i => (∑ t in Finset.range n, construct_convolution_matrix kernel m t i * y t) / n

/-- Determinant of the leading `N × N` block of a matrix, by Laplace
expansion along the first column. -/
def det_laplace : ℕ → (ℕ → ℕ → ℚ) → ℚ
  | 0, _ => 1
  | N + 1, M => ∑ r in Finset.range (N + 1),
      (-1 : ℚ) ^ r * M r 0
        * det_laplace N (fun a b => M (if a < r then a else a + 1) (b + 1))

/-- The minor of a matrix obtained by deleting row `r` and column `c`. -/
def matrix_minor (M : ℕ → ℕ → ℚ) (r c : ℕ) : ℕ → ℕ → ℚ :=
  fun a b => M (if a < r then a else a + 1) (if b < c then b else b + 1)

/-- Models `np.linalg.inv` (line 113) in exact arithmetic: the exact inverse in
cofactor/determinant form when the leading `N × N` block is nonsingular,
and `none` — modelling the `LinAlgError` raised for a singular input —
otherwise. -/
def np_linalg_inv (N : ℕ) (M : ℕ → ℕ → ℚ) : Option (ℕ → ℕ → ℚ) :=
  if det_laplace N M = 0 then none
  else some (fun i j =>
    (-1 : ℚ) ^ (i + j) * det_laplace (N - 1) (matrix_minor M j i) / det_laplace N M)

/-- The ADMM primal update (line 120):
`x = Inv · (Cᵀy/n + ρ·Dᵀ(α − u))`, where `xupd` is the precomputed inverse
and `cty` the precomputed `Cᵀy/n`. -/
def admm_x (n k : ℕ) (rho : ℚ) (xupd : ℕ → ℕ → ℚ) (cty : ℕ → ℚ)
    (al u : ℕ → ℚ) : ℕ → ℚ :=
  fun i => ∑ j in Finset.range n, xupd i j
    * (cty j + rho * ∑ t in Finset.range (n - k - 1), trend_D k t j * (al t - u t))

/-- One full ADMM iteration's `(α, u)` update (lines 120-126), with the
soft-threshold level `thr = λ/ρ` already computed: compute the primal
update `x`, form `v = D^(k+1)x + u`, soft-threshold to get the new `α`,
and set the new dual `u = v − α`. -/
def admm_step (n k : ℕ) (rho : ℚ) (xupd : ℕ → ℕ → ℚ) (cty : ℕ → ℚ) (thr : ℚ) :
    ((ℕ → ℚ) × (ℕ → ℚ)) → ((ℕ → ℚ) × (ℕ → ℚ)) :=
  fun s =>
    let x := admm_x n k rho xupd cty s.1 s.2
    let dxu := fun i => diff_vec (k + 1) x i + s.2 i
    let al := soft_thresh_vec dxu thr
    (al, fun i => dxu i - al i)

/-- The ADMM loop of `deconvolve_tf` (lines 116-126) with Python exception
semantics.  The state carries Python's `x_k` (initially `None`), `alpha_0`
and `u_0`; each iteration computes the primal update, evaluates
`lam / rho` (ZeroDivisionError — `none` — when `ρ = 0`), soft-thresholds
and updates the dual.  There is no convergence test: the iteration count
is the only exit. -/
def admm_iter (n k : ℕ) (lam rho : ℚ) (xupd : ℕ → ℕ → ℚ) (cty : ℕ → ℚ) :
    ℕ → (Option (ℕ → ℚ) × (ℕ → ℚ) × (ℕ → ℚ))
      → Option (Option (ℕ → ℚ) × (ℕ → ℚ) × (ℕ → ℚ))
  | 0, s => some s
  | t + 1, s =>
    let x := admm_x n k rho xupd cty s.2.1 s.2.2
    let dxu := fun i => diff_vec (k + 1) x i + s.2.2 i
    match py_div lam rho with
    | none => none
    | some thr =>
      let al := soft_thresh_vec dxu thr
      admm_iter n k lam rho xupd cty t (some x, al, fun i => dxu i - al i)

/-- Embeds `deconvolve_tf` (lines 63-131): trend-filtering regularized
deconvolution by ADMM with `ρ = λ` (line 104, "set equal").  Precompute
the inverse (LinAlgError → `none`), run the fixed-count ADMM loop
(ZeroDivisionError → `none`), then optionally clip to `[0, ∞)`.  When
`n_iters = 0` Python falls through with `x_k = None` and returns `None`
rather than a signal; that non-result is also folded into `none`. -/
def deconvolve_tf (y : ℕ → ℚ) (n : ℕ) (kernel : ℕ → ℚ) (m : ℕ) (lam : ℚ)
    (n_iters k : ℕ) (clip : Bool) : Option (ℕ → ℚ) :=
  match np_linalg_inv n (precompute_matrix kernel m n k lam) with
  | none => none
  | some xupd =>
    match admm_iter n k lam lam xupd (Cty y kernel m n) n_iters
        (none, fun _ => 0, fun _ => 0) with
    | none => none
    | some s =>
      match s.1 with
      | none => none
      | some x => some (fun i => if clip then max (x i) 0 else x i)

/-- The reference value of `deconvolve_tf` as an explicit fixed-count
iteration: advance the `(α, u)` state exactly `n_iters − 1` times with the
pure per-iteration map, compute the final iteration's primal update, and
apply the optional clip (line 128-131).  Stating `deconvolve_tf` equal to
this expression exhibits the loop as precisely `n_iters` data-independent
iterations with no early exit. -/
def deconvolve_tf_iterated (y : ℕ → ℚ) (n : ℕ) (kernel : ℕ → ℚ) (m : ℕ)
    (lam : ℚ) (n_iters k : ℕ) (clip : Bool) (W : ℕ → ℕ → ℚ) : ℕ → ℚ :=
  fun i =>
    let st := (admm_step n k lam W (Cty y kernel m n) (lam / lam))^[n_iters - 1]
      (fun _ => 0, fun _ => 0)
    let x := admm_x n k lam W (Cty y kernel m n) st.1 st.2
    if clip then max (x i) 0 else x i

/-- NaN-propagating numpy float addition (`a + c` at line 248). -/
def nan_add (a b : Option ℚ) : Option ℚ :=
  match a, b with
  | some x, some y => some (x + y)
  | _, _ => none

/-- NaN-propagating halving (`/ 2` at line 248). -/
def nan_half (a : Option ℚ) : Option ℚ :=
  a.map (fun x => x / 2)

/-- In-place array write `x[i] = v` on an index-function array. -/
def np_set (f : ℕ → Option ℚ) (i : ℕ) (v : Option ℚ) : ℕ → Option ℚ :=
  fun j => if j = i then v else f j

/-- The state of the caller's array after the edge-handling block of
`_impute_with_neighbors` (lines 238-243) ran: the code assigns
`x[0] = x[1]` and then `x[-1] = x[-2]` **in place on its argument** when
the respective entry is NaN.  For `n < 2` any taken assignment raises
IndexError before mutating (`x[1]`, respectively `x[-2]`, is read first;
for `n = 0` already the read `x[0]` raises), so the argument is unchanged
in that case. -/
def impute_arg_after (n : ℕ) (f : ℕ → Option ℚ) : ℕ → Option ℚ :=
  if n < 2 then f
  else
    let g1 := if f 0 = none then np_set f 0 (f 1) else f
    if g1 (n - 1) = none then np_set g1 (n - 1) (g1 (n - 2)) else g1

/-- Embeds `_impute_with_neighbors` (lines 224-252): fix up missing edges in
place, copy the array, fill each missing interior entry of the copy with
the average of its immediate neighbours read from the edge-fixed array
(`for i, (a, b, c) in enumerate(zip(x, x[1:], x[2:]))` writes positions
`1 ≤ p ≤ n-2`), then `assert` that no NaN remains.  `none` models an
IndexError from the edge handling on a too-short array or the failing
assert. -/
def impute_with_neighbors (n : ℕ) (f : ℕ → Option ℚ) : Option (ℕ → Option ℚ) :=
  if n = 0 then none
  else if n = 1 then (if f 0 = none then none else some f)
  else
    let g := impute_arg_after n f
    let r : ℕ → Option ℚ := fun i =>
      if 1 ≤ i ∧ i + 1 < n ∧ g i = none
      then nan_half (nan_add (g (i - 1)) (g (i + 1)))
      else g i
    if ∃ i < n, r i = none then none else some r

/-- Tail-recursive core of `np.argmin`: first index of the strict minimum. -/
def np_argmin_go : List ℚ → ℕ → ℕ → ℚ → ℕ
  | [], _, best, _ => best
  | v :: rest, idx, best, bestv =>
    if v < bestv then np_argmin_go rest (idx + 1) idx v
    else np_argmin_go rest (idx + 1) best bestv

/-- Models `np.argmin` (line 218): the index of the first occurrence of the
minimum; `none` on an empty input (numpy raises ValueError there). -/
def np_argmin : List ℚ → Option ℕ
  | [] => none
  | v :: rest => some (np_argmin_go rest 1 0 v)

/-- The training positions (`~test_split`) of le3o fold `i` (lines
190-196): all indices `t < n` with `t % 3 ≠ i`, in increasing order —
numpy boolean indexing `y[~test_split]` compresses the series to these
positions. -/
def le3o_train_idx (i n : ℕ) : List ℕ :=
  (List.range n).filter (fun t => !decide (t % 3 = i))

/-- One le3o fold's loss contribution at one grid value (lines 197-205):
fit the deconvolver on the compressed training series, scatter the fit
into an NaN-initialised array of length `n`, impute the held-out gaps,
re-convolve through the forward model (`_fft_convolve`; in exact
arithmetic the spectral route computes exactly this truncated linear
convolution),
and sum the squared errors at the held-out positions.  `none` propagates
an exception raised by the inner solver or by the imputation assert. -/
def le3o_fold_loss (y kernel : ℕ → ℚ) (n m n_iters k : ℕ) (clip : Bool)
    (reg : ℚ) (i : ℕ) : Option ℚ :=
  let idxs := le3o_train_idx i n
  match deconvolve_tf (fun j => y (idxs.getD j 0)) idxs.length kernel m reg
      n_iters k clip with
  | none => none
  | some xc =>
    let xh : ℕ → Option ℚ := fun t =>
      if t % 3 = i then none else some (xc (idxs.indexOf t))
    match impute_with_neighbors n xh with
    | none => none
    | some xi =>
      let yh := linear_convolution (fun t => (xi t).getD 0) kernel m
      some (∑ t in Finset.range n, if t % 3 = i then (y t - yh t) ^ 2 else 0)

/-- One walk-forward fold's loss contribution at one grid value (lines
208-216): fit the deconvolver on the first `n - i` observations, append a
forecast slot filled by repeating the last fitted entry
(`x_hat[-1] = x_hat[-2]`), re-convolve, and score the squared error of the
final convolved sample `y_hat[-1] = ŷ[n-i]` against `y[-1] = y[n-1]` —
the last observation of the *full* series, whatever the fold. -/
def forward_fold_loss (y kernel : ℕ → ℚ) (n m n_iters k : ℕ) (clip : Bool)
    (reg : ℚ) (i : ℕ) : Option ℚ :=
  match deconvolve_tf y (n - i) kernel m reg n_iters k clip with
  | none => none
  | some xf =>
    let xh : ℕ → ℚ := fun t => if t < n - i then xf t else xf (n - i - 1)
    let yh := linear_convolution xh kernel m
    some ((y (n - 1) - yh (n - i)) ^ 2)

/-- Modelled from the spec: the walk-forward fold loss as the spec
describes it — "accumulate squared error on the single next true observed
value", i.e. score the forecast `ŷ[n-i]` against the observation at index
`n - i`, the first point after the training window (`deconvolve_tf_cv`'s
"forward" branch instead reads `y[-1]`, the last observation). -/
def forward_fold_loss_spec (y kernel : ℕ → ℚ) (n m n_iters k : ℕ) (clip : Bool)
    (reg : ℚ) (i : ℕ) : Option ℚ :=
  match deconvolve_tf y (n - i) kernel m reg n_iters k clip with
  | none => none
  | some xf =>
    let xh : ℕ → ℚ := fun t => if t < n - i then xf t else xf (n - i - 1)
    let yh := linear_convolution xh kernel m
    some ((y (n - i) - yh (n - i)) ^ 2)

/-- The accumulated cross-validation losses of `deconvolve_tf_cv`, one per
grid value (lines 186-216).  Python iterates folds outermost and grid
values innermost while adding into `cv_loss`; the embedded value computes
each grid value's total directly (addition reordering does not change the
totals, and an exception anywhere yields `none` either way).  The guard at
lines 181-184 — `assert (method in {...}, "...")` — asserts a non-empty
*tuple*, which is always truthy in Python: it never fires, so an
unrecognized method name skips both branches and leaves `cv_loss` all
zero. -/
def cv_loss_list (y kernel : ℕ → ℚ) (n m : ℕ) (method : String)
    (cv_grid : List ℚ) (n_folds n_iters k : ℕ) (clip : Bool) : Option (List ℚ) :=
  if method = "le3o" then
    cv_grid.mapM (fun reg => (List.range 3).foldlM
      (fun acc i => (le3o_fold_loss y kernel n m n_iters k clip reg i).map
        (fun v => acc + v)) (0 : ℚ))
  else if method = "forward" then
    cv_grid.mapM (fun reg => (List.range n_folds).foldlM
      (fun acc i => (forward_fold_loss y kernel n m n_iters k clip reg (i + 1)).map
        (fun v => acc + v)) (0 : ℚ))
  else
    some (cv_grid.map (fun _ => 0))

/-- Embeds `deconvolve_tf_cv` (lines 134-221): accumulate the cross-validation
losses over the grid, pick the first grid value attaining the minimum
loss (`np.argmin`), and re-run the full deconvolution at that value. -/
def deconvolve_tf_cv (y : ℕ → ℚ) (n : ℕ) (kernel : ℕ → ℚ) (m : ℕ)
    (method : String) (cv_grid : List ℚ) (n_folds n_iters k : ℕ)
    (clip : Bool) : Option (ℕ → ℚ) :=
  match cv_loss_list y kernel n m method cv_grid n_folds n_iters k clip with
  | none => none
  | some losses =>
    match np_argmin losses with
    | none => none
    | some jm => deconvolve_tf y n kernel m (cv_grid.getD jm 0) n_iters k clip

/-- Closed form of the soft-thresholding operator for a nonnegative
threshold: shrink towards zero by `t`, clamping to `0` inside `[-t, t]`. -/
theorem soft_thresh_closed_form (x t : ℚ) (ht : 0 ≤ t) :
    soft_thresh x t = if t < x then x - t else if x < -t then x + t else 0 := by
  unfold soft_thresh np_sign
  rcases lt_trichotomy x 0 with hx | hx | hx
  · rw [abs_of_neg hx, if_pos hx]
    rcases le_or_lt (-x) t with h1 | h1
    · rw [max_eq_right (by linarith), mul_zero, if_neg (by linarith),
        if_neg (by linarith)]
    · rw [max_eq_left (by linarith), if_neg (by linarith), if_pos (by linarith)]
      ring
  · subst hx
    rw [if_neg (lt_irrefl 0), if_pos rfl, zero_mul, if_neg (by linarith),
      if_neg (by linarith)]
  · rw [abs_of_pos hx, if_neg (by linarith), if_neg (ne_of_gt hx)]
    rcases le_or_lt x t with h1 | h1
    · rw [max_eq_right (by linarith), mul_zero, if_neg (by linarith),
        if_neg (by linarith)]
    · rw [max_eq_left (by linarith), one_mul, if_pos h1]

/-- C3 counterexample: at the vector `v = [2]` and threshold `t = 1`,
applying `_soft_thresh` twice gives `0` at index 0 while applying it once
gives `1`, so soft-thresholding is not idempotent. -/
theorem soft_thresh_not_idempotent_cex :
    soft_thresh_vec (soft_thresh_vec (fun _ => (2 : ℚ)) 1) 1 0
      ≠ soft_thresh_vec (fun _ => (2 : ℚ)) 1 0 := by
  norm_num [soft_thresh_vec, soft_thresh, np_sign]

/-- C3 (amended): the soft-thresholding operator is not idempotent; instead,
for every vector `v` and threshold `t ≥ 0`, applying it twice with threshold
`t` equals applying it once with threshold `2·t` (idempotence would hold only
at `t = 0`). -/
theorem soft_thresh_twice_eq_double (v : ℕ → ℚ) (t : ℚ) (ht : 0 ≤ t) :
    soft_thresh_vec (soft_thresh_vec v t) t = soft_thresh_vec v (2 * t) := by
  funext i
  show soft_thresh (soft_thresh (v i) t) t = soft_thresh (v i) (2 * t)
  rw [soft_thresh_closed_form (v i) t ht,
    soft_thresh_closed_form _ t ht,
    soft_thresh_closed_form _ (2 * t) (by linarith)]
  split_ifs <;> linarith

/-- Witness for `soft_thresh_twice_eq_double` at `v = [3]`, `t = 1`. -/
theorem soft_thresh_twice_eq_double_witness :
    (0 : ℚ) ≤ 1 ∧
      soft_thresh_vec (soft_thresh_vec (fun _ => (3 : ℚ)) 1) 1
        = soft_thresh_vec (fun _ => (3 : ℚ)) (2 * 1) :=
  ⟨by norm_num, soft_thresh_twice_eq_double (fun _ => (3 : ℚ)) 1 (by norm_num)⟩

/-- C5: for a non-empty kernel of length `m` and a latent vector of length
`n ≥ 1`, the truncated `n × n` convolution matrix has entry `(i, j)` equal to
`kernel (i - j)` when `0 ≤ i - j < m` and `0` otherwise, and its
matrix-vector action on `x` reproduces the first `n` samples of the full
linear convolution of `x` with the kernel. -/
theorem conv_matrix_entries_and_action (kernel x : ℕ → ℚ) (m n : ℕ)
    (hm : 1 ≤ m) (hn : 1 ≤ n) :
    (∀ i < n, ∀ j < n, construct_convolution_matrix kernel m i j
        = if j ≤ i ∧ i - j < m then kernel (i - j) else 0)
    ∧ (∀ i < n, mat_vec n (construct_convolution_matrix kernel m) x i
        = linear_convolution x kernel m i) := by
  have hentry : ∀ i < n, ∀ j < n, construct_convolution_matrix kernel m i j
      = if j ≤ i ∧ i - j < m then kernel (i - j) else 0 := by
    intro i _ j _
    simp only [construct_convolution_matrix, toeplitz]
    split_ifs <;> first | rfl | omega | (exfalso; omega)
  refine ⟨hentry, ?_⟩
  intro i hi
  show (∑ j in Finset.range n, construct_convolution_matrix kernel m i j * x j)
      = ∑ j in Finset.range (i + 1), (if i - j < m then kernel (i - j) else 0) * x j
  rw [← Finset.sum_subset (Finset.range_subset.mpr (show i + 1 ≤ n by omega))
      (fun j hj hj2 => by
        rw [Finset.mem_range] at hj
        rw [Finset.mem_range, not_lt] at hj2
        rw [hentry i hi j hj, if_neg (show ¬(j ≤ i ∧ i - j < m) by omega),
          zero_mul])]
  refine Finset.sum_congr rfl fun j hj => ?_
  rw [Finset.mem_range] at hj
  rw [hentry i hi j (by omega)]
  split_ifs <;> first | rfl | (exfalso; omega)

/-- Witness for `conv_matrix_entries_and_action` at the kernel `[2, 1]`
(`m = 2`), vector `[1, 1, 1]` and `n = 3`. -/
theorem conv_matrix_entries_and_action_witness :
    (1 ≤ 2 ∧ 1 ≤ 3) ∧
      ((∀ i < 3, ∀ j < 3,
          construct_convolution_matrix (fun t => if t = 0 then (2 : ℚ) else 1) 2 i j
            = if j ≤ i ∧ i - j < 2
                then (fun t => if t = 0 then (2 : ℚ) else 1) (i - j) else 0)
      ∧ (∀ i < 3, mat_vec 3
            (construct_convolution_matrix (fun t => if t = 0 then (2 : ℚ) else 1) 2)
            (fun _ => (1 : ℚ)) i
          = linear_convolution (fun _ => (1 : ℚ))
              (fun t => if t = 0 then (2 : ℚ) else 1) 2 i)) :=
  ⟨⟨by norm_num, by norm_num⟩,
    conv_matrix_entries_and_action (fun t => if t = 0 then (2 : ℚ) else 1)
      (fun _ => (1 : ℚ)) 2 3 (by norm_num) (by norm_num)⟩

/-- Orthogonality of root powers: for `ω` of order dividing `N` whose proper
power sums vanish, `∑_{j<N} ω^(j·s)` is `N` when `N ∣ s` and `0` otherwise. -/
theorem root_power_sum {F : Type} [Field F] (N : ℕ) (ω : F) (hroot : ω ^ N = 1)
    (hsum : ∀ r, 0 < r → r < N → ∑ j in Finset.range N, ω ^ (j * r) = 0)
    (hNpos : 0 < N) (s : ℕ) :
    ∑ j in Finset.range N, ω ^ (j * s) = if N ∣ s then (N : F) else 0 := by
  have hred : ∀ j, ω ^ (j * s) = ω ^ (j * (s % N)) := by
    intro j
    conv_lhs => rw [show s = N * (s / N) + s % N from (Nat.div_add_mod s N).symm]
    rw [Nat.mul_add, pow_add, show j * (N * (s / N)) = N * (j * (s / N)) by ring,
      pow_mul, hroot, one_pow, one_mul]
  simp only [hred]
  rcases Nat.eq_zero_or_pos (s % N) with h0 | hpos
  · rw [if_pos (Nat.dvd_of_mod_eq_zero h0)]
    simp only [h0, Nat.mul_zero, pow_zero]
    rw [Finset.sum_const, Finset.card_range, nsmul_eq_mul, mul_one]
  · have hndvd : ¬ N ∣ s := by
      intro hd
      have := Nat.mod_eq_zero_of_dvd hd
      omega
    rw [if_neg hndvd]
    exact hsum (s % N) hpos (Nat.mod_lt s hNpos)

/-- A residue comparison for naturals below `2N`: congruence mod `N` to a
residue `i < N` means equality to `i` or to `i + N`. -/
theorem mod_eq_cases (x i N : ℕ) (hx : x < 2 * N) (hi : i < N) :
    x % N = i % N ↔ (x = i ∨ x = i + N) := by
  rw [Nat.mod_eq_of_lt hi]
  rcases lt_or_le x N with h | h
  · rw [Nat.mod_eq_of_lt h]
    omega
  · rw [Nat.mod_eq_sub_mod h, Nat.mod_eq_of_lt (by omega)]
    omega

/-- Divisibility condition produced by the inverse-root exponent in the
convolution theorem: `N ∣ a + b + (N-1)·i` iff `a + b ≡ i (mod N)`. -/
theorem dvd_shift_iff (N a b i : ℕ) (hNpos : 0 < N) :
    N ∣ (a + b + (N - 1) * i) ↔ (a + b) % N = i % N := by
  have hle : i ≤ N * i := Nat.le_mul_of_pos_left i hNpos
  have hkey : (a + b + (N - 1) * i) + i = (a + b) + N * i := by
    rw [tsub_mul, one_mul]
    omega
  constructor
  · intro hd
    have hs0 : (a + b + (N - 1) * i) % N = 0 := Nat.mod_eq_zero_of_dvd hd
    have hstep : ((a + b + (N - 1) * i) + i) % N = i % N := by
      rw [Nat.add_mod, hs0, Nat.zero_add, Nat.mod_mod_of_dvd i (dvd_refl N)]
    rw [hkey, Nat.add_mul_mod_self_left] at hstep
    exact hstep
  · intro hmod
    have hstep : ((a + b + (N - 1) * i) + i) % N = (0 + i) % N := by
      rw [hkey, Nat.add_mul_mod_self_left, Nat.zero_add]
      exact hmod
    have hcancel : a + b + (N - 1) * i ≡ 0 [MOD N] :=
      Nat.ModEq.add_right_cancel' i hstep
    have h6 : (a + b + (N - 1) * i) % N = 0 % N := hcancel
    rw [Nat.zero_mod] at h6
    exact Nat.dvd_of_mod_eq_zero h6

/-- C6: for every signal of length `n ≥ 1` and non-empty kernel of length
`m`, over any field with a primitive `(n+m-1)`-th root of unity `ω` (the
exact-arithmetic counterpart of `exp(-2πi/(n+m-1))` in the floating-point
FFT; the hypotheses state exactly the root-of-unity facts used), the
frequency-domain convolution `_fft_convolve` agrees with the direct
time-domain linear convolution truncated to the first `n` samples. -/
theorem fft_convolve_eq_direct {F : Type} [Field F] (ω : F) (signal kernel : ℕ → F)
    (n m : ℕ) (hn : 1 ≤ n) (hm : 1 ≤ m)
    (hroot : ω ^ (n + m - 1) = 1)
    (hsum : ∀ r, 0 < r → r < n + m - 1 →
      ∑ j in Finset.range (n + m - 1), ω ^ (j * r) = 0)
    (hcast : ((n + m - 1 : ℕ) : F) ≠ 0) :
    ∀ i < n, fft_convolve ω signal kernel n m i = linear_convolution signal kernel m i := by
  intro i hi
  simp only [fft_convolve, idft, dft, linear_convolution]
  set N := n + m - 1 with hN
  have hNpos : 0 < N := by omega
  have hiN : i < N := by omega
  have horth : ∀ s : ℕ, ∑ j in Finset.range N, ω ^ (j * s) = if N ∣ s then (N : F) else 0 :=
    root_power_sum N ω hroot hsum hNpos
  have expand : ∀ j, (∑ a in Finset.range N, (if a < n then signal a else 0) * ω ^ (a * j))
      * (∑ b in Finset.range N, (if b < m then kernel b else 0) * ω ^ (b * j))
      * (ω ^ (N - 1)) ^ (j * i)
      = ∑ a in Finset.range N, ∑ b in Finset.range N,
          (if a < n then signal a else 0) * (if b < m then kernel b else 0)
            * ω ^ (j * (a + b + (N - 1) * i)) := by
    intro j
    rw [Finset.sum_mul_sum, Finset.sum_mul]
    refine Finset.sum_congr rfl fun a _ => ?_
    rw [Finset.sum_mul]
    refine Finset.sum_congr rfl fun b _ => ?_
    rw [← pow_mul ω (N - 1) (j * i),
      show j * (a + b + (N - 1) * i) = a * j + b * j + (N - 1) * (j * i) by ring,
      pow_add, pow_add]
    ring
  rw [Finset.sum_congr rfl fun j _ => expand j]
  rw [Finset.sum_comm]
  have swap2 : ∀ a ∈ Finset.range N,
      (∑ j in Finset.range N, ∑ b in Finset.range N,
        (if a < n then signal a else 0) * (if b < m then kernel b else 0)
          * ω ^ (j * (a + b + (N - 1) * i)))
      = ∑ b in Finset.range N,
          (if a < n then signal a else 0) * (if b < m then kernel b else 0)
            * (if a + b = i then (N : F) else 0) := by
    intro a ha
    rw [Finset.mem_range] at ha
    rw [Finset.sum_comm]
    refine Finset.sum_congr rfl fun b hb => ?_
    rw [Finset.mem_range] at hb
    rw [← Finset.mul_sum, horth (a + b + (N - 1) * i),
      if_congr ((dvd_shift_iff N a b i hNpos).trans
        (mod_eq_cases (a + b) i N (by omega) hiN)) rfl rfl]
    by_cases h1 : a + b = i
    · rw [if_pos (Or.inl h1), if_pos h1]
    · rw [if_neg h1]
      by_cases h2 : a + b = i + N
      · rw [if_pos (Or.inr h2)]
        have hz : ((if a < n then signal a else 0) * if b < m then kernel b else 0)
            = 0 := by
          rcases lt_or_le a n with h3 | h3
          · rcases lt_or_le b m with h4 | h4
            · exfalso
              omega
            · rw [if_neg (not_lt.mpr h4), mul_zero]
          · rw [if_neg (not_lt.mpr h3), zero_mul]
        rw [hz, zero_mul, zero_mul]
      · rw [if_neg (not_or.mpr ⟨h1, h2⟩)]
  rw [Finset.sum_congr rfl swap2]
  have collapse : ∀ a ∈ Finset.range N,
      (∑ b in Finset.range N,
        (if a < n then signal a else 0) * (if b < m then kernel b else 0)
          * (if a + b = i then (N : F) else 0))
      = if a ≤ i then (if i - a < m
          then (if a < n then signal a else 0) * kernel (i - a) else 0) * (N : F)
        else 0 := by
    intro a ha
    rw [Finset.mem_range] at ha
    rcases le_or_lt a i with hai | hai
    · have hcond : ∀ b : ℕ, (a + b = i) = (b = i - a) := fun b => propext (by omega)
      simp only [hcond, mul_ite, mul_zero]
      rw [Finset.sum_ite_eq' (Finset.range N) (i - a) _]
      rw [if_pos (Finset.mem_range.mpr (show i - a < N by omega)), if_pos hai]
    · rw [if_neg (not_le.mpr hai)]
      apply Finset.sum_eq_zero
      intro b _
      rw [if_neg (show ¬(a + b = i) by omega), mul_zero]
  rw [Finset.sum_congr rfl collapse]
  rw [← Finset.sum_subset (Finset.range_subset.mpr (show i + 1 ≤ N by omega))
      (fun a _ ha2 => by
        rw [Finset.mem_range, not_lt] at ha2
        exact if_neg (by omega))]
  have unfold_if : ∀ a ∈ Finset.range (i + 1),
      (if a ≤ i then (if i - a < m
          then (if a < n then signal a else 0) * kernel (i - a) else 0) * (N : F)
        else 0)
      = (if i - a < m then (if a < n then signal a else 0) * kernel (i - a) else 0)
          * (N : F) :=
    fun a ha => if_pos (by rw [Finset.mem_range] at ha; omega)
  rw [Finset.sum_congr rfl unfold_if, ← Finset.sum_mul,
    mul_comm (∑ a in Finset.range (i + 1),
      (if i - a < m then (if a < n then signal a else 0) * kernel (i - a) else 0))
      ((N : F)),
    ← mul_assoc, inv_mul_cancel₀ hcast, one_mul]
  refine Finset.sum_congr rfl fun a ha => ?_
  rw [Finset.mem_range] at ha
  rw [if_pos (show a < n by omega)]
  split_ifs with h
  · ring
  · ring

/-- Witness for `fft_convolve_eq_direct` over the field `ZMod 5` with the
primitive 4th root of unity `ω = 2` (`n = 2`, `m = 3`, `N = 4`), at the
signal `[1, 2]` and kernel `[1, 1, 1]`. -/
theorem fft_convolve_eq_direct_witness :
    (1 ≤ 2 ∧ 1 ≤ 3 ∧ (2 : ZMod 5) ^ (2 + 3 - 1) = 1
      ∧ (((2 + 3 - 1 : ℕ) : ZMod 5) ≠ 0))
    ∧ ∀ i < 2, fft_convolve (2 : ZMod 5) (fun t => if t = 0 then 1 else 2)
        (fun _ => 1) 2 3 i
      = linear_convolution (fun t => if t = 0 then (1 : ZMod 5) else 2)
          (fun _ => 1) 3 i :=
  ⟨⟨by norm_num, by norm_num, by decide, by decide⟩,
    fft_convolve_eq_direct (2 : ZMod 5) (fun t => if t = 0 then 1 else 2)
      (fun _ => 1) 2 3 (by norm_num) (by norm_num) (by decide)
      (by intro r h1 h2; interval_cases r <;> decide) (by decide)⟩

/-- With `λ = 0` the step size `ρ = λ` is zero and the soft-threshold level
`lam / rho = 0 / 0` raises ZeroDivisionError during the first iteration, so
`deconvolve_tf` produces no result for any data whenever at least one
iteration runs. -/
theorem deconvolve_tf_lam_zero (y kernel : ℕ → ℚ) (n m n_iters k : ℕ)
    (clip : Bool) (hit : 1 ≤ n_iters) :
    deconvolve_tf y n kernel m 0 n_iters k clip = none := by
  obtain ⟨t, rfl⟩ : ∃ t, n_iters = t + 1 := ⟨n_iters - 1, by omega⟩
  simp only [deconvolve_tf]
  cases h : np_linalg_inv n (precompute_matrix kernel m n k 0) with
  | none => rfl
  | some xupd =>
    simp only [admm_iter, py_div, if_pos rfl, if_true]

/-- C2 (amended): for an observed series of length `n > k + 1` and a kernel
whose only nonzero entry is a `1` at position 0 (identity delay),
`deconvolve_tf` with `λ = 0` and `clip = False` does not return the
observed series: because `ρ = λ` ("set equal") the soft-threshold level
`λ/ρ = 0/0` raises ZeroDivisionError in the first iteration, so the call
produces no result at all (for any `n_iters ≥ 1`). -/
theorem deconvolve_identity_lam0_raises (y kernel : ℕ → ℚ) (n m n_iters k : ℕ)
    (hn : k + 1 < n) (hm : 1 ≤ m)
    (hker0 : kernel 0 = 1) (hker : ∀ t, 0 < t → kernel t = 0)
    (hit : 1 ≤ n_iters) :
    deconvolve_tf y n kernel m 0 n_iters k false = none :=
  deconvolve_tf_lam_zero y kernel n m n_iters k false hit

/-- Witness for `deconvolve_identity_lam0_raises` at `y = [1, 2, 3]`,
kernel `[1]`, `k = 0`, one iteration. -/
theorem deconvolve_identity_lam0_raises_witness :
    (0 + 1 < 3 ∧ 1 ≤ 1 ∧ (fun t : ℕ => if t = 0 then (1 : ℚ) else 0) 0 = 1)
    ∧ deconvolve_tf (fun i => (i : ℚ) + 1) 3
        (fun t => if t = 0 then (1 : ℚ) else 0) 1 0 1 0 false = none :=
  ⟨⟨by norm_num, le_refl 1, by norm_num⟩,
    deconvolve_identity_lam0_raises (fun i => (i : ℚ) + 1)
      (fun t => if t = 0 then (1 : ℚ) else 0) 3 1 1 0 (by norm_num) (by norm_num)
      (by norm_num) (fun t ht => by simp only []; rw [if_neg (show ¬(t = 0) by omega)]) (le_refl 1)⟩

/-- C2 counterexample: at the concrete observed series `[1, 2]`, identity
kernel `[1]`, `λ = 0`, one iteration, `k = 0`, `clip = False` — a series
with `n = 2 > k + 1` — the call yields no result (`none`, the
ZeroDivisionError of `0/0`), in particular not the observed series. -/
theorem deconvolve_identity_lam0_cex :
    deconvolve_tf (fun i => if i = 0 then (1 : ℚ) else 2) 2
      (fun t => if t = 0 then (1 : ℚ) else 0) 1 0 1 0 false = none :=
  deconvolve_tf_lam_zero (fun i => if i = 0 then (1 : ℚ) else 2)
    (fun t => if t = 0 then (1 : ℚ) else 0) 2 1 1 0 false (le_refl 1)

/-- One unfolding of the ADMM loop when the threshold division succeeds:
an iteration advances the `(α, u)` state by `admm_step` and records the
primal update. -/
theorem admm_iter_body (n k : ℕ) (lam rho : ℚ) (xupd : ℕ → ℕ → ℚ)
    (cty : ℕ → ℚ) (hrho : rho ≠ 0) (t : ℕ)
    (s : Option (ℕ → ℚ) × (ℕ → ℚ) × (ℕ → ℚ)) :
    admm_iter n k lam rho xupd cty (t + 1) s
      = admm_iter n k lam rho xupd cty t
          (some (admm_x n k rho xupd cty s.2.1 s.2.2),
            admm_step n k rho xupd cty (lam / rho) (s.2.1, s.2.2)) := by
  simp only [admm_iter, py_div, if_neg hrho, admm_step]

/-- Running the ADMM loop for `t + 1` iterations with a nonzero step size
equals iterating the pure step `t` times and computing one final primal
update: the loop has no convergence test and no data-dependent exit. -/
theorem admm_iter_run (n k : ℕ) (lam rho : ℚ) (xupd : ℕ → ℕ → ℚ)
    (cty : ℕ → ℚ) (hrho : rho ≠ 0) :
    ∀ (t : ℕ) (xo : Option (ℕ → ℚ)) (p : (ℕ → ℚ) × (ℕ → ℚ)),
      admm_iter n k lam rho xupd cty (t + 1) (xo, p)
        = some (some (admm_x n k rho xupd cty
              ((admm_step n k rho xupd cty (lam / rho))^[t] p).1
              ((admm_step n k rho xupd cty (lam / rho))^[t] p).2),
            (admm_step n k rho xupd cty (lam / rho))^[t + 1] p) := by
  intro t
  induction t with
  | zero =>
    intro xo p
    rw [admm_iter_body n k lam rho xupd cty hrho 0]
    simp only [admm_iter, Function.iterate_zero, id_eq, zero_add,
      Function.iterate_one, Prod.mk.eta]
  | succ t ih =>
    intro xo p
    rw [admm_iter_body n k lam rho xupd cty hrho (t + 1)]
    rw [ih]
    simp only [← Function.iterate_succ_apply]

/-- C7 (amended): under the preconditions `n > k + 1` and an invertible
precompute matrix — together with `λ ≠ 0` (with `λ = 0` the coupled step
size `ρ = λ` makes the threshold division `λ/ρ` raise ZeroDivisionError)
and `n_iters ≥ 1` (with zero iterations Python returns its initial
`x_k = None` instead of a signal) — `deconvolve_tf` executes exactly
`n_iters` ADMM iterations and returns: the result equals the pure
`n_iters`-fold iteration `deconvolve_tf_iterated`, exhibiting a loop with
no convergence test, no early exit and no data-dependent branching. -/
theorem deconvolve_runs_exact_iters (y kernel : ℕ → ℚ) (n m n_iters k : ℕ)
    (lam : ℚ) (clip : Bool) (W : ℕ → ℕ → ℚ)
    (hn : k + 1 < n) (hlam : lam ≠ 0) (hit : 1 ≤ n_iters)
    (hinv : np_linalg_inv n (precompute_matrix kernel m n k lam) = some W) :
    deconvolve_tf y n kernel m lam n_iters k clip
      = some (deconvolve_tf_iterated y n kernel m lam n_iters k clip W) := by
  obtain ⟨t, rfl⟩ : ∃ t, n_iters = t + 1 := ⟨n_iters - 1, by omega⟩
  simp only [deconvolve_tf, hinv]
  rw [admm_iter_run n k lam lam W (Cty y kernel m n) hlam t none
    (fun _ => 0, fun _ => 0)]
  unfold deconvolve_tf_iterated
  simp only [Nat.add_sub_cancel]

/-- Witness for `deconvolve_runs_exact_iters` at `y = [3, 4]`, kernel `[1]`,
`λ = 1`, one iteration, `k = 0`, with the concrete cofactor-form inverse. -/
theorem deconvolve_runs_exact_iters_witness :
    (0 + 1 < 2 ∧ (1 : ℚ) ≠ 0 ∧ 1 ≤ 1
      ∧ np_linalg_inv 2
          (precompute_matrix (fun t => if t = 0 then (1 : ℚ) else 0) 1 2 0 1)
        = some (fun i j => (-1 : ℚ) ^ (i + j)
            * det_laplace 1 (matrix_minor
                (precompute_matrix (fun t => if t = 0 then (1 : ℚ) else 0) 1 2 0 1) j i)
            / det_laplace 2
                (precompute_matrix (fun t => if t = 0 then (1 : ℚ) else 0) 1 2 0 1)))
    ∧ deconvolve_tf (fun i => if i = 0 then (3 : ℚ) else 4) 2
        (fun t => if t = 0 then (1 : ℚ) else 0) 1 1 1 0 false
      = some (deconvolve_tf_iterated (fun i => if i = 0 then (3 : ℚ) else 4) 2
          (fun t => if t = 0 then (1 : ℚ) else 0) 1 1 1 0 false
          (fun i j => (-1 : ℚ) ^ (i + j)
            * det_laplace 1 (matrix_minor
                (precompute_matrix (fun t => if t = 0 then (1 : ℚ) else 0) 1 2 0 1) j i)
            / det_laplace 2
                (precompute_matrix (fun t => if t = 0 then (1 : ℚ) else 0) 1 2 0 1))) :=
  have hdet : det_laplace 2
      (precompute_matrix (fun t => if t = 0 then (1 : ℚ) else 0) 1 2 0 1) ≠ 0 := by
    norm_num [det_laplace, precompute_matrix, construct_convolution_matrix, toeplitz,
      trend_D, diff_rows, band_matrix, Finset.sum_range_succ]
  have hinv : np_linalg_inv 2
      (precompute_matrix (fun t => if t = 0 then (1 : ℚ) else 0) 1 2 0 1)
    = some (fun i j => (-1 : ℚ) ^ (i + j)
        * det_laplace 1 (matrix_minor
            (precompute_matrix (fun t => if t = 0 then (1 : ℚ) else 0) 1 2 0 1) j i)
        / det_laplace 2
            (precompute_matrix (fun t => if t = 0 then (1 : ℚ) else 0) 1 2 0 1)) := by
    unfold np_linalg_inv
    rw [if_neg hdet]
  ⟨⟨by norm_num, by norm_num, le_refl 1, hinv⟩,
    deconvolve_runs_exact_iters (fun i => if i = 0 then (3 : ℚ) else 4)
      (fun t => if t = 0 then (1 : ℚ) else 0) 2 1 1 0 1 false _
      (by norm_num) (by norm_num) (le_refl 1) hinv⟩

/-- C7 counterexample: at `y = [5, 6]`, identity kernel `[1]`, `k = 0`,
`n = 2 > k + 1` and `λ = 0`, the precompute matrix is invertible — the
claim's preconditions hold — yet the solver raises ZeroDivisionError
(`λ/ρ = 0/0`) during the first of its `n_iters = 2` iterations and never
returns, contradicting guaranteed termination with a result. -/
theorem deconvolve_not_return_lam0_cex :
    (np_linalg_inv 2
      (precompute_matrix (fun t => if t = 0 then (1 : ℚ) else 0) 1 2 0 0)).isSome = true
    ∧ deconvolve_tf (fun i => if i = 0 then (5 : ℚ) else 6) 2
        (fun t => if t = 0 then (1 : ℚ) else 0) 1 0 2 0 true = none :=
  have hdet : det_laplace 2
      (precompute_matrix (fun t => if t = 0 then (1 : ℚ) else 0) 1 2 0 0) ≠ 0 := by
    norm_num [det_laplace, precompute_matrix, construct_convolution_matrix, toeplitz,
      trend_D, diff_rows, band_matrix, Finset.sum_range_succ]
  ⟨by unfold np_linalg_inv; rw [if_neg hdet]; rfl,
    deconvolve_tf_lam_zero (fun i => if i = 0 then (5 : ℚ) else 6)
      (fun t => if t = 0 then (1 : ℚ) else 0) 2 1 2 0 true (by norm_num)⟩

/-- C9 (amended): for every vector of length `n ≥ 2` with only isolated
missing entries (never two consecutive), `_impute_with_neighbors` succeeds
and returns a vector with no missing values that keeps every present
entry, fills a missing first/last entry by copying its single neighbour,
and fills each missing interior entry with the arithmetic mean of its
immediate left and right neighbours.  (Length ≥ 2 is required: on the
one-element vector `[NaN]` the edge fill `x[0] = x[1]` raises IndexError,
see the counterexample.) -/
theorem impute_isolated_correct (n : ℕ) (f : ℕ → Option ℚ) (hn : 2 ≤ n)
    (hiso : ∀ i, i + 1 < n → ¬(f i = none ∧ f (i + 1) = none)) :
    ∃ r, impute_with_neighbors n f = some r
      ∧ (∀ i < n, r i ≠ none)
      ∧ (∀ i < n, f i ≠ none → r i = f i)
      ∧ (f 0 = none → r 0 = f 1)
      ∧ (f (n - 1) = none → r (n - 1) = f (n - 2))
      ∧ (∀ i, 1 ≤ i → i + 1 < n → f i = none →
          ∃ a b, f (i - 1) = some a ∧ f (i + 1) = some b
            ∧ r i = some ((a + b) / 2)) := by
  have hn1 : ¬ n < 2 := by omega
  have hgeq : ∀ j, impute_arg_after n f j
      = if j = n - 1 ∧ f (n - 1) = none
        then (if n - 2 = 0 ∧ f 0 = none then f 1 else f (n - 2))
        else if j = 0 ∧ f 0 = none then f 1 else f j := by
    intro j
    by_cases h0 : f 0 = none <;> by_cases hl : f (n - 1) = none <;>
      simp only [impute_arg_after, np_set, if_neg hn1, h0, hl, if_true, if_false,
        eq_self_iff_true, and_true, and_false, true_and, false_and,
        if_neg (show ¬(n - 1 = 0) by omega)] <;>
      split_ifs <;> first | rfl | (exfalso; omega)
  have hg0eq : f 0 ≠ none → impute_arg_after n f 0 = f 0 := by
    intro h0
    rw [hgeq 0, if_neg (fun hc => absurd hc.1 (by omega)), if_neg (fun hc => h0 hc.2)]
  have hg0eq' : f 0 = none → impute_arg_after n f 0 = f 1 := by
    intro h0
    rw [hgeq 0, if_neg (fun hc => absurd hc.1 (by omega)), if_pos ⟨rfl, h0⟩]
  have hg0ne : impute_arg_after n f 0 ≠ none := by
    by_cases h0 : f 0 = none
    · rw [hg0eq' h0]
      exact fun h1 => hiso 0 (by omega) ⟨h0, h1⟩
    · rw [hg0eq h0]
      exact h0
  have hglast : f (n - 1) = none → impute_arg_after n f (n - 1) = f (n - 2) := by
    intro hl
    rw [hgeq (n - 1), if_pos ⟨rfl, hl⟩]
    by_cases hz : n - 2 = 0
    · have h0 : ¬ f 0 = none := fun h0 =>
        hiso 0 (by omega) ⟨h0, by rw [show (0 : ℕ) + 1 = n - 1 by omega]; exact hl⟩
      rw [if_neg (fun hc => h0 hc.2)]
    · rw [if_neg (fun hc => hz hc.1)]
  have hglasteq : f (n - 1) ≠ none → impute_arg_after n f (n - 1) = f (n - 1) := by
    intro hl
    rw [hgeq (n - 1), if_neg (fun hc => hl hc.2),
      if_neg (fun hc => absurd hc.1 (by omega))]
  have hglastne : impute_arg_after n f (n - 1) ≠ none := by
    by_cases hl : f (n - 1) = none
    · rw [hglast hl]
      exact fun hc => hiso (n - 2) (by omega)
        ⟨hc, by rw [show n - 2 + 1 = n - 1 by omega]; exact hl⟩
    · rw [hglasteq hl]
      exact hl
  have hgmid : ∀ i, 1 ≤ i → i + 1 < n → impute_arg_after n f i = f i := by
    intro i h1 h2
    rw [hgeq i, if_neg (fun hc => absurd hc.1 (by omega)),
      if_neg (fun hc => absurd hc.1 (by omega))]
  have hnbr : ∀ i, 1 ≤ i → i + 1 < n → f i = none →
      impute_arg_after n f (i - 1) = f (i - 1) ∧ f (i - 1) ≠ none
        ∧ impute_arg_after n f (i + 1) = f (i + 1) ∧ f (i + 1) ≠ none := by
    intro i h1 h2 hfi
    have hl : f (i - 1) ≠ none := fun hc =>
      hiso (i - 1) (by omega) ⟨hc, by rw [show i - 1 + 1 = i by omega]; exact hfi⟩
    have hr : f (i + 1) ≠ none := fun hc => hiso i (by omega) ⟨hfi, hc⟩
    refine ⟨?_, hl, ?_, hr⟩
    · rcases Nat.eq_zero_or_pos (i - 1) with hz | hpos
      · rw [hz]
        rw [hz] at hl
        exact hg0eq hl
      · exact hgmid (i - 1) (by omega) (by omega)
    · rcases eq_or_lt_of_le (show i + 1 + 1 ≤ n by omega) with he | hlt
      · have hee : i + 1 = n - 1 := by omega
        rw [hee]
        rw [hee] at hr
        exact hglasteq hr
      · exact hgmid (i + 1) (by omega) (by omega)
  have hRne : ∀ i < n,
      (if 1 ≤ i ∧ i + 1 < n ∧ impute_arg_after n f i = none
        then nan_half (nan_add (impute_arg_after n f (i - 1))
          (impute_arg_after n f (i + 1)))
        else impute_arg_after n f i) ≠ none := by
    intro i hi
    by_cases hc : 1 ≤ i ∧ i + 1 < n ∧ impute_arg_after n f i = none
    · rw [if_pos hc]
      obtain ⟨h1, h2, h3⟩ := hc
      have hfi : f i = none := by
        rw [← hgmid i h1 h2]
        exact h3
      obtain ⟨e1, ne1, e2, ne2⟩ := hnbr i h1 h2 hfi
      rw [e1, e2]
      rcases Option.ne_none_iff_exists'.mp ne1 with ⟨a, ha⟩
      rcases Option.ne_none_iff_exists'.mp ne2 with ⟨b, hb⟩
      rw [ha, hb]
      simp [nan_add, nan_half]
    · rw [if_neg hc]
      by_cases h1 : 1 ≤ i
      · by_cases h2 : i + 1 < n
        · exact fun hni => hc ⟨h1, h2, hni⟩
        · have he : i = n - 1 := by omega
          rw [he]
          exact hglastne
      · have he : i = 0 := by omega
        rw [he]
        exact hg0ne
  have hRpres : ∀ i < n, f i ≠ none →
      (if 1 ≤ i ∧ i + 1 < n ∧ impute_arg_after n f i = none
        then nan_half (nan_add (impute_arg_after n f (i - 1))
          (impute_arg_after n f (i + 1)))
        else impute_arg_after n f i) = f i := by
    intro i hi hfi
    by_cases h1 : 1 ≤ i
    · by_cases h2 : i + 1 < n
      · rw [if_neg (fun hc => hfi (by rw [← hgmid i h1 h2]; exact hc.2.2))]
        exact hgmid i h1 h2
      · rw [if_neg (fun hc => h2 hc.2.1)]
        have he : i = n - 1 := by omega
        rw [he]
        exact hglasteq (he ▸ hfi)
    · rw [if_neg (fun hc => h1 hc.1)]
      have he : i = 0 := by omega
      rw [he]
      exact hg0eq (he ▸ hfi)
  have hR0 : f 0 = none →
      (if 1 ≤ 0 ∧ 0 + 1 < n ∧ impute_arg_after n f 0 = none
        then nan_half (nan_add (impute_arg_after n f (0 - 1))
          (impute_arg_after n f (0 + 1)))
        else impute_arg_after n f 0) = f 1 := by
    intro h0
    rw [if_neg (fun hc => absurd hc.1 (by omega))]
    exact hg0eq' h0
  have hRlast : f (n - 1) = none →
      (if 1 ≤ n - 1 ∧ n - 1 + 1 < n ∧ impute_arg_after n f (n - 1) = none
        then nan_half (nan_add (impute_arg_after n f (n - 1 - 1))
          (impute_arg_after n f (n - 1 + 1)))
        else impute_arg_after n f (n - 1)) = f (n - 2) := by
    intro hl
    rw [if_neg (fun hc => absurd hc.2.1 (by omega))]
    exact hglast hl
  have hRmean : ∀ i, 1 ≤ i → i + 1 < n → f i = none →
      ∃ a b, f (i - 1) = some a ∧ f (i + 1) = some b
        ∧ (if 1 ≤ i ∧ i + 1 < n ∧ impute_arg_after n f i = none
            then nan_half (nan_add (impute_arg_after n f (i - 1))
              (impute_arg_after n f (i + 1)))
            else impute_arg_after n f i) = some ((a + b) / 2) := by
    intro i h1 h2 hfi
    obtain ⟨e1, ne1, e2, ne2⟩ := hnbr i h1 h2 hfi
    rcases Option.ne_none_iff_exists'.mp ne1 with ⟨a, ha⟩
    rcases Option.ne_none_iff_exists'.mp ne2 with ⟨b, hb⟩
    refine ⟨a, b, ha, hb, ?_⟩
    rw [if_pos ⟨h1, h2, by rw [hgmid i h1 h2]; exact hfi⟩, e1, e2, ha, hb]
    simp [nan_add, nan_half]
  have hmain : impute_with_neighbors n f
      = some (fun i => if 1 ≤ i ∧ i + 1 < n ∧ impute_arg_after n f i = none
          then nan_half (nan_add (impute_arg_after n f (i - 1))
            (impute_arg_after n f (i + 1)))
          else impute_arg_after n f i) := by
    simp only [impute_with_neighbors, if_neg (show ¬(n = 0) by omega),
      if_neg (show ¬(n = 1) by omega)]
    rw [if_neg (show ¬ ∃ i, i < n ∧
        (if 1 ≤ i ∧ i + 1 < n ∧ impute_arg_after n f i = none
          then nan_half (nan_add (impute_arg_after n f (i - 1))
            (impute_arg_after n f (i + 1)))
          else impute_arg_after n f i) = none from by
      rintro ⟨i, hi, hcon⟩
      exact hRne i hi hcon)]
  exact ⟨fun i => if 1 ≤ i ∧ i + 1 < n ∧ impute_arg_after n f i = none
      then nan_half (nan_add (impute_arg_after n f (i - 1))
        (impute_arg_after n f (i + 1)))
      else impute_arg_after n f i,
    hmain, fun i hi => hRne i hi, fun i hi hfi => hRpres i hi hfi,
    fun h0 => hR0 h0, fun hl => hRlast hl,
    fun i h1 h2 hfi => hRmean i h1 h2 hfi⟩

/-- Witness for `impute_isolated_correct` at the vector `[1.0, NaN, 3.0]`
(`n = 3`), the first concrete example of the claim. -/
theorem impute_isolated_correct_witness :
    (2 ≤ 3 ∧ (∀ i, i + 1 < 3 →
      ¬((fun t => if t = 0 then some (1 : ℚ) else if t = 1 then none else some 3) i = none
        ∧ (fun t => if t = 0 then some (1 : ℚ) else if t = 1 then none else some 3) (i + 1) = none)))
    ∧ ∃ r, impute_with_neighbors 3
        (fun t => if t = 0 then some (1 : ℚ) else if t = 1 then none else some 3) = some r
      ∧ (∀ i < 3, r i ≠ none)
      ∧ (∀ i < 3, (fun t => if t = 0 then some (1 : ℚ) else if t = 1 then none else some 3) i ≠ none →
          r i = (fun t => if t = 0 then some (1 : ℚ) else if t = 1 then none else some 3) i)
      ∧ ((fun t => if t = 0 then some (1 : ℚ) else if t = 1 then none else some 3) 0 = none →
          r 0 = (fun t => if t = 0 then some (1 : ℚ) else if t = 1 then none else some 3) 1)
      ∧ ((fun t => if t = 0 then some (1 : ℚ) else if t = 1 then none else some 3) (3 - 1) = none →
          r (3 - 1) = (fun t => if t = 0 then some (1 : ℚ) else if t = 1 then none else some 3) (3 - 2))
      ∧ (∀ i, 1 ≤ i → i + 1 < 3 →
          (fun t => if t = 0 then some (1 : ℚ) else if t = 1 then none else some 3) i = none →
          ∃ a b, (fun t => if t = 0 then some (1 : ℚ) else if t = 1 then none else some 3) (i - 1) = some a
            ∧ (fun t => if t = 0 then some (1 : ℚ) else if t = 1 then none else some 3) (i + 1) = some b
            ∧ r i = some ((a + b) / 2)) :=
  have hiso : ∀ i, i + 1 < 3 →
      ¬((fun t => if t = 0 then some (1 : ℚ) else if t = 1 then none else some 3) i = none
        ∧ (fun t => if t = 0 then some (1 : ℚ) else if t = 1 then none else some 3) (i + 1) = none) := by
    intro i hi
    have hi2 : i < 2 := by omega
    interval_cases i <;> simp
  ⟨⟨by norm_num, hiso⟩,
    impute_isolated_correct 3
      (fun t => if t = 0 then some (1 : ℚ) else if t = 1 then none else some 3)
      (by norm_num) hiso⟩

/-- C9 counterexample: the one-element vector `[NaN]` has only isolated
missing entries, yet `_impute_with_neighbors` raises IndexError reading
`x[1]` during the edge fill and produces no imputed vector at all — so the
postcondition "the result contains no missing values" fails as stated for
every such vector. -/
theorem impute_singleton_nan_cex :
    impute_with_neighbors 1 (fun _ => (none : Option ℚ)) = none := by
  simp [impute_with_neighbors]

/-- C8 counterexample: calling `_impute_with_neighbors` on `[NaN, 2.0]`
succeeds, but the edge-handling block has written `x[0] = x[1]` into the
caller's array: afterwards the argument holds `2.0` at index 0 where the
caller had stored NaN — the argument vector is mutated, not left
unchanged. -/
theorem impute_mutates_edge_cex :
    (impute_with_neighbors 2 (fun t => if t = 0 then none else some (2 : ℚ))).isSome = true
    ∧ impute_arg_after 2 (fun t => if t = 0 then none else some (2 : ℚ)) 0 = some 2
    ∧ (fun t => if t = 0 then none else some (2 : ℚ)) 0 = (none : Option ℚ) := by
  refine ⟨?_, ?_, rfl⟩
  · simp only [impute_with_neighbors, impute_arg_after]
    norm_num [np_set]
    intro x hx
    interval_cases x <;> norm_num [np_set, Option.some_ne_none]
  · norm_num [impute_arg_after, np_set, Option.some_ne_none]

/-- C8 (amended): `_impute_with_neighbors` leaves its argument unchanged
provided the argument's first and last entries are present; when an edge
entry is missing, the edge-handling block writes the fill value into the
caller's array in place (see the counterexample).  The returned vector is
a fresh copy (`np.copy`) in every case. -/
theorem impute_preserves_arg_of_present_edges (n : ℕ) (f : ℕ → Option ℚ)
    (h0 : f 0 ≠ none) (hl : f (n - 1) ≠ none) :
    impute_arg_after n f = f := by
  by_cases h : n < 2
  · simp only [impute_arg_after, if_pos h]
  · simp only [impute_arg_after, if_neg h, if_neg h0, if_neg hl]

/-- Witness for `impute_preserves_arg_of_present_edges` at the fully
present vector `[1, 2, 3]`. -/
theorem impute_preserves_arg_of_present_edges_witness :
    ((fun t : ℕ => some ((t : ℚ) + 1)) 0 ≠ none
      ∧ (fun t : ℕ => some ((t : ℚ) + 1)) (3 - 1) ≠ none)
    ∧ impute_arg_after 3 (fun t : ℕ => some ((t : ℚ) + 1))
      = fun t : ℕ => some ((t : ℚ) + 1) :=
  ⟨⟨by simp, by simp⟩,
    impute_preserves_arg_of_present_edges 3 (fun t : ℕ => some ((t : ℚ) + 1))
      (by simp) (by simp)⟩

/-- C10: the "le3o" policy never reads the fold-count argument — two calls
to `deconvolve_tf_cv` that agree on every argument except `n_folds` return
identical results. -/
theorem le3o_ignores_n_folds (y kernel : ℕ → ℚ) (n m : ℕ) (cv_grid : List ℚ)
    (nf1 nf2 n_iters k : ℕ) (clip : Bool) :
    deconvolve_tf_cv y n kernel m "le3o" cv_grid nf1 n_iters k clip
      = deconvolve_tf_cv y n kernel m "le3o" cv_grid nf2 n_iters k clip := by
  simp only [deconvolve_tf_cv, cv_loss_list, if_pos rfl, if_true]

/-- C4: at the concrete series `y = [0, 0, 1, 5]`, kernel `[1]`, grid value
`λ = 1`, one ADMM iteration, `k = 0`, `clip = False`, walk-forward fold
`i = 2` (training on the first two observations, forecasting index 2), the
code's fold loss is `(y[3] − ŷ[2])² = 25` — it scores the forecast against
the *last* observation `y[-1] = 5` — while the loss the spec describes
scores the next observation `y[2] = 1`, giving `(y[2] − ŷ[2])² = 1`.  The
fitted values here are identically zero, so `ŷ[2] = 0`. -/
theorem forward_cv_scores_last_observation :
    forward_fold_loss (fun t => if t = 2 then (1 : ℚ) else if t = 3 then 5 else 0)
        (fun t => if t = 0 then (1 : ℚ) else 0) 4 1 1 0 false 1 2 = some 25
    ∧ forward_fold_loss_spec (fun t => if t = 2 then (1 : ℚ) else if t = 3 then 5 else 0)
        (fun t => if t = 0 then (1 : ℚ) else 0) 4 1 1 0 false 1 2 = some 1 := by
  have hdet : det_laplace 2
      (precompute_matrix (fun t => if t = 0 then (1 : ℚ) else 0) 1 2 0 1) ≠ 0 := by
    norm_num [det_laplace, precompute_matrix, construct_convolution_matrix, toeplitz,
      trend_D, diff_rows, band_matrix, Finset.sum_range_succ]
  have hinv : np_linalg_inv 2
      (precompute_matrix (fun t => if t = 0 then (1 : ℚ) else 0) 1 2 0 1)
    = some (fun i j => (-1 : ℚ) ^ (i + j)
        * det_laplace 1 (matrix_minor
            (precompute_matrix (fun t => if t = 0 then (1 : ℚ) else 0) 1 2 0 1) j i)
        / det_laplace 2
            (precompute_matrix (fun t => if t = 0 then (1 : ℚ) else 0) 1 2 0 1)) := by
    unfold np_linalg_inv
    rw [if_neg hdet]
  constructor <;>
  · simp only [forward_fold_loss, forward_fold_loss_spec,
      show (4 : ℕ) - 2 = 2 from rfl, deconvolve_tf, hinv, admm_iter, py_div]
    norm_num [admm_x, Cty, trend_D, diff_rows, band_matrix,
      construct_convolution_matrix, toeplitz, linear_convolution, diff_vec,
      soft_thresh_vec, soft_thresh, np_sign, Finset.sum_range_succ]

/-- C1: calling `deconvolve_tf_cv` with the unrecognized method name
`"bogus"` does *not* raise: the guard `assert (method in {...}, "...")`
asserts a non-empty tuple — always truthy in Python — so both branches are
skipped, `cv_loss` stays all-zero, `np.argmin` picks index 0, and the call
silently returns the full-series fit at the first grid value.  Shown here
at `y = [0, 1]`, kernel `[1]`, grid `[1]`, `n_folds = 5`, one iteration,
`k = 0`, `clip = False`: the call returns a result, equal to
`deconvolve_tf` at `λ = 1`. -/
theorem cv_unrecognized_method_returns :
    (deconvolve_tf_cv (fun t => (t : ℚ)) 2 (fun t => if t = 0 then (1 : ℚ) else 0) 1
      "bogus" [1] 5 1 0 false).isSome = true
    ∧ deconvolve_tf_cv (fun t => (t : ℚ)) 2 (fun t => if t = 0 then (1 : ℚ) else 0) 1
        "bogus" [1] 5 1 0 false
      = deconvolve_tf (fun t => (t : ℚ)) 2 (fun t => if t = 0 then (1 : ℚ) else 0) 1
          1 1 0 false := by
  have hdet : det_laplace 2
      (precompute_matrix (fun t => if t = 0 then (1 : ℚ) else 0) 1 2 0 1) ≠ 0 := by
    norm_num [det_laplace, precompute_matrix, construct_convolution_matrix, toeplitz,
      trend_D, diff_rows, band_matrix, Finset.sum_range_succ]
  have hinv : np_linalg_inv 2
      (precompute_matrix (fun t => if t = 0 then (1 : ℚ) else 0) 1 2 0 1)
    = some (fun i j => (-1 : ℚ) ^ (i + j)
        * det_laplace 1 (matrix_minor
            (precompute_matrix (fun t => if t = 0 then (1 : ℚ) else 0) 1 2 0 1) j i)
        / det_laplace 2
            (precompute_matrix (fun t => if t = 0 then (1 : ℚ) else 0) 1 2 0 1)) := by
    unfold np_linalg_inv
    rw [if_neg hdet]
  have hcv : deconvolve_tf_cv (fun t => (t : ℚ)) 2
      (fun t => if t = 0 then (1 : ℚ) else 0) 1 "bogus" [1] 5 1 0 false
      = deconvolve_tf (fun t => (t : ℚ)) 2 (fun t => if t = 0 then (1 : ℚ) else 0) 1
          1 1 0 false := by
    simp only [deconvolve_tf_cv, cv_loss_list, if_neg (show ¬("bogus" = "le3o") by decide),
      if_neg (show ¬("bogus" = "forward") by decide), List.map, np_argmin, np_argmin_go,
      List.getD]
    rfl
  refine ⟨?_, hcv⟩
  rw [hcv]
  simp only [deconvolve_tf, hinv, admm_iter, py_div]
  norm_num
